import Mathlib

/-!
# A shallow embedding of the streaming ZIP encoder in `src/zip.rs`

This file models the `ZipWriter` archive session of the `zip-service`
repository.  Bytes are modelled as natural numbers below 256, byte streams as
`List Nat`, and the 32-bit / 16-bit machine integers of the source as `Nat`
with explicit reductions modulo `2^32` / `2^16` at the points where the Rust
code performs wrapping arithmetic or truncating casts (`as u32`, `as u16`).

The DEFLATE compressor (`flate2::write::DeflateEncoder`) and the CRC-32 hasher
(`crc32fast::Hasher`) are external crates.  The CRC-32 hasher is modelled
concretely (the standard reflected IEEE CRC-32, which is what `crc32fast`
computes).  The compressor is abstracted by the contract the specification
gives it: on each write it consumes the chunk and may emit zero or more output
bytes, and on finish it flushes whatever remains.
-/

set_option linter.unusedVariables false

namespace ZipService

/-- The modulus `2^32` of Rust `u32` arithmetic. -/
def u32Mod : Nat := 4294967296

/-- The modulus `2^16` of Rust `u16` arithmetic. -/
def u16Mod : Nat := 65536

/-- Little-endian encoding of the low 16 bits of `n`
(`writer.write_u16::<LittleEndian>`). -/
def u16le (n : Nat) : List Nat := [n % 256, n / 256 % 256]

/-- Little-endian encoding of the low 32 bits of `n`
(`writer.write_u32::<LittleEndian>`). -/
def u32le (n : Nat) : List Nat :=
  [n % 256, n / 256 % 256, n / 65536 % 256, n / 16777216 % 256]

/-! ## CRC-32 (model of `crc32fast::Hasher`) -/

/-- The reversed IEEE 802.3 polynomial used by the ZIP format. -/
def crc32Poly : Nat := 0xEDB88320

/-- One shift step of the bitwise (reflected) CRC-32 computation. -/
def crc32Step (c : Nat) : Nat :=
  if c % 2 = 1 then (c / 2) ^^^ crc32Poly else c / 2

/-- Eight shift steps, i.e. the processing of one absorbed byte. -/
def crc32Steps8 (c : Nat) : Nat :=
  crc32Step (crc32Step (crc32Step (crc32Step
    (crc32Step (crc32Step (crc32Step (crc32Step c)))))))

/-- Absorb one byte into the running CRC-32 state. -/
def crc32Byte (c b : Nat) : Nat := crc32Steps8 (c ^^^ b % 256)

/-- Model of `Hasher::update`: absorb a byte sequence into the running state. -/
def crc32Update (c : Nat) (data : List Nat) : Nat := data.foldl crc32Byte c

/-- Model of `Hasher::new()`: the initial CRC-32 state. -/
def crc32Init : Nat := 0xFFFFFFFF

/-- Model of `Hasher::finalize()`: final xor of the running state. -/
def crc32Finalize (c : Nat) : Nat := c ^^^ 0xFFFFFFFF

/-- The IEEE CRC-32 of a byte sequence (ZIP variant). -/
def crc32Of (data : List Nat) : Nat := crc32Finalize (crc32Update crc32Init data)

/-! ## The DEFLATE compressor, abstracted

Modelled from the spec: the repository uses the external crate `flate2`
(`DeflateEncoder<Vec<u8>>`), which is not part of this repository's sources.
Section 4.B of the specification fixes its contract: on each `write` the
compressor consumes the whole chunk and "may produce zero or more output
bytes at this call"; on `finish` it flushes its internal state and returns
the remaining output bytes.  A `Compressor` packages exactly that interface:
`write st chunk` returns the successor state together with the bytes newly
appended to the encoder's output buffer (which the session drains), and
`finish st` returns the bytes produced by finalization. -/
structure Compressor (σ : Type) where
  init : σ
  write : σ → List Nat → σ × List Nat
  finish : σ → List Nat

/-- A trivial compressor instance (`σ = Unit`) that emits every chunk verbatim
and has no pending state; used to instantiate theorems at concrete inputs. -/
def passthroughC : Compressor Unit where
  init := ()
  write := fun _ c => ((), c)
  finish := fun _ => []

/-- Feeding a list of chunks one by one through `C.write`, collecting the
emitted bytes (the per-`write` drains of the encoder's output buffer). -/
def compressList (C : Compressor σ) : σ → List (List Nat) → σ × List Nat
  | st, [] => (st, [])
  | st, c :: cs =>
    let p := C.write st c
    let q := compressList C p.1 cs
    (q.1, p.2 ++ q.2)

/-- The total compressed output for a chunk sequence: everything emitted
during the writes followed by everything emitted by finalization. -/
def compressAll (C : Compressor σ) (chunks : List (List Nat)) : List Nat :=
  let p := compressList C C.init chunks
  p.2 ++ C.finish p.1

/-! ## Data model (`src/zip.rs`) -/

/-- Model of `struct FileMetadata` of `src/zip.rs`.  `file_name` holds the UTF-8 bytes
of the Rust `String`. -/
structure FileMetadata where
  crc32 : Nat
  uncompressed_size : Nat
  compressed_size : Nat
  offset : Nat
  file_name : List Nat
deriving Repr, DecidableEq

/-- Model of `struct CurrentFileState` of `src/zip.rs`: the open entry's metadata in
progress, the CRC hasher state, and the DEFLATE encoder state. -/
structure CurrentFileState (σ : Type) where
  file_metadata : FileMetadata
  hasher : Nat
  encoder : σ

/-- Model of `struct ZipWriter` of `src/zip.rs`.  The `hyper::body::Sender` sink is
modelled by `sink`, the concatenation of every byte chunk handed to
`send_data` so far (the sink preserves concatenation exactly and, in this
pure model, never fails). -/
structure ZipWriter (σ : Type) where
  sink : List Nat
  file_metadata : List FileMetadata
  bytes_written : Nat
  current_file_state : Option (CurrentFileState σ)

/-- A Rust `panic!` / `Option::unwrap` abort.  The source treats protocol
misuse as a task-aborting panic, not as a recoverable `Result` error; the
model records the panic message. -/
structure ZipPanic where
  msg : String
deriving Repr, DecidableEq

/-! ## Binary record writers (`src/zip.rs`, lines 187-410) -/

/-- Model of `write_local_file_header`: the emitted bytes.  Field order and constants
are transcribed from the source; the file-name length is the Rust
`file_name.len() as u16` truncation. -/
def localFileHeaderBytes (file : FileMetadata) : List Nat :=
  u32le 0x04034b50 ++ u16le 0x0014 ++ u16le 8 ++ u16le 8 ++ u16le 0 ++ u16le 0 ++
  u32le 0 ++ u32le 0 ++ u32le 0 ++
  u16le (file.file_name.length % u16Mod) ++ u16le 0 ++ file.file_name

/-- The function `write_local_file_header`'s return value `30 + file_name.len() as u32`,
with the cast and the `u32` addition made explicit. -/
def localFileHeaderSize (file : FileMetadata) : Nat :=
  (30 + file.file_name.length % u32Mod) % u32Mod

/-- Model of `write_data_descriptor`: the emitted bytes. -/
def dataDescriptorBytes (file : FileMetadata) : List Nat :=
  u32le 0x08074b50 ++ u32le file.crc32 ++ u32le file.compressed_size ++
  u32le file.uncompressed_size

/-- Model of `write_central_directory_header`: the emitted bytes.  `814 = (3 << 8) | 46`
is the version-made-by field and `2175008768 = 0o100644 << 16` the external
file attributes, as in the source. -/
def centralDirectoryHeaderBytes (file : FileMetadata) : List Nat :=
  u32le 0x02014b50 ++ u16le 814 ++ u16le 0x0014 ++ u16le 8 ++ u16le 8 ++
  u16le 0 ++ u16le 0 ++
  u32le file.crc32 ++ u32le file.compressed_size ++ u32le file.uncompressed_size ++
  u16le (file.file_name.length % u16Mod) ++ u16le 0 ++ u16le 0 ++ u16le 0 ++
  u16le 0 ++ u32le 2175008768 ++ u32le file.offset ++ file.file_name

/-- The function `write_central_directory_header`'s return value
`46 + file_name.len() as u32`. -/
def centralDirectoryHeaderSize (file : FileMetadata) : Nat :=
  (46 + file.file_name.length % u32Mod) % u32Mod

/-- Model of `write_end_of_central_directory_record`: the emitted bytes.  The caller
passes the entry count already truncated to `u16`. -/
def endOfCentralDirectoryBytes (number_of_entries offset size : Nat) : List Nat :=
  u32le 0x06054b50 ++ u16le 0 ++ u16le 0 ++ u16le number_of_entries ++
  u16le number_of_entries ++ u32le size ++ u32le offset ++ u16le 0

/-! ## The archive session operations (`impl ZipWriter`) -/

/-- Model of `ZipWriter::new`: the empty session. -/
def ZipWriter.new : ZipWriter σ :=
  { sink := [], file_metadata := [], bytes_written := 0, current_file_state := none }

/-- Model of `ZipWriter::start_file`.  Panics if an entry is already open; otherwise
builds the fresh metadata with `offset = bytes_written`, sends the local file
header, installs the fresh hasher and encoder, and adds the header size to
`bytes_written` (a `u32` addition). -/
def ZipWriter.start_file (C : Compressor σ) (s : ZipWriter σ) (file_name : List Nat) :
    Except ZipPanic (ZipWriter σ) :=
  match s.current_file_state with
  | some _ => .error ⟨"call finish_file before starting a new file"⟩
  | none =>
    let md : FileMetadata :=
      { crc32 := 0, uncompressed_size := 0, compressed_size := 0,
        offset := s.bytes_written, file_name := file_name }
    let buf := localFileHeaderBytes md
    .ok { sink := s.sink ++ buf,
          file_metadata := s.file_metadata,
          bytes_written := (s.bytes_written + localFileHeaderSize md) % u32Mod,
          current_file_state := some
            { file_metadata := md, hasher := crc32Init, encoder := C.init } }

/-- Model of `ZipWriter::write`.  Panics if no entry is open; otherwise adds the chunk
length (`as u32`) to `uncompressed_size`, updates the hasher, feeds the chunk
to the encoder, drains the encoder's output buffer, adds the drained length
(`as u32`) to `compressed_size`, and sends the drained bytes.
`bytes_written` is not touched. -/
def ZipWriter.write (C : Compressor σ) (s : ZipWriter σ) (buf : List Nat) :
    Except ZipPanic (ZipWriter σ) :=
  match s.current_file_state with
  | none => .error ⟨"cannot write until start_file is called"⟩
  | some cfs =>
    let md := cfs.file_metadata
    let p := C.write cfs.encoder buf
    .ok { s with
          sink := s.sink ++ p.2,
          current_file_state := some
            { file_metadata :=
                { md with
                  uncompressed_size :=
                    (md.uncompressed_size + buf.length % u32Mod) % u32Mod,
                  compressed_size :=
                    (md.compressed_size + p.2.length % u32Mod) % u32Mod },
              hasher := crc32Update cfs.hasher buf,
              encoder := p.1 } }

/-- Model of `ZipWriter::finish_file`.  Its `std::mem::take(..).unwrap()` panics when no
entry is open; otherwise finalizes the CRC into `crc32`, finishes the encoder
and sends the remaining bytes (added to `compressed_size`), sends the data
descriptor, adds `compressed_size + 16` to `bytes_written` (u32 additions,
left associated as in the source), appends the metadata and clears the open
entry. -/
def ZipWriter.finish_file (C : Compressor σ) (s : ZipWriter σ) :
    Except ZipPanic (ZipWriter σ) :=
  match s.current_file_state with
  | none => .error ⟨"called Option::unwrap() on a None value"⟩
  | some cfs =>
    let remaining_data := C.finish cfs.encoder
    let md : FileMetadata :=
      { cfs.file_metadata with
        crc32 := crc32Finalize cfs.hasher,
        compressed_size :=
          (cfs.file_metadata.compressed_size + remaining_data.length % u32Mod) % u32Mod }
    let buf := dataDescriptorBytes md
    .ok { sink := s.sink ++ remaining_data ++ buf,
          file_metadata := s.file_metadata ++ [md],
          bytes_written := ((s.bytes_written + md.compressed_size) % u32Mod + 16) % u32Mod,
          current_file_state := none }

/-- The metadata finalization performed by `finish_file`: the CRC is
finalized from the hasher state and the encoder's remaining output length is
added to `compressed_size` (u32 addition). -/
def finalizeMd (C : Compressor σ) (md : FileMetadata) (hs : Nat) (enc : σ) : FileMetadata :=
  { md with
      crc32 := crc32Finalize hs,
      compressed_size := (md.compressed_size + (C.finish enc).length % u32Mod) % u32Mod }

/-- The loop body of `ZipWriter::finish`: send one central directory header
and add its size to `bytes_written` (u32 addition). -/
def finishStep (acc : List Nat × Nat) (file : FileMetadata) : List Nat × Nat :=
  (acc.1 ++ centralDirectoryHeaderBytes file,
   (acc.2 + centralDirectoryHeaderSize file) % u32Mod)

/-- Model of `ZipWriter::finish`.  Records `offset = bytes_written`, sends one central
directory header per entry in order (updating `bytes_written`), computes
`size = bytes_written - offset` (wrapping u32 subtraction), and sends the
end-of-central-directory record with the entry count truncated to `u16`.
Returns the complete byte stream delivered to the sink. -/
def ZipWriter.finish (s : ZipWriter σ) : List Nat :=
  let offset := s.bytes_written
  let r := s.file_metadata.foldl finishStep (s.sink, s.bytes_written)
  let size := (r.2 + u32Mod - offset) % u32Mod
  r.1 ++ endOfCentralDirectoryBytes (s.file_metadata.length % u16Mod) offset size

/-! ## Driving the session -/

/-- One public mutating operation on an open session. -/
inductive ZipOp where
  | start_file (name : List Nat)
  | write (chunk : List Nat)
  | finish_file
deriving Repr

/-- Dispatch one operation. -/
def ZipWriter.step (C : Compressor σ) (s : ZipWriter σ) : ZipOp → Except ZipPanic (ZipWriter σ)
  | .start_file name => s.start_file C name
  | .write chunk => s.write C chunk
  | .finish_file => s.finish_file C

/-- Run a sequence of operations from a given session state. -/
def runOps (C : Compressor σ) (s : ZipWriter σ) : List ZipOp → Except ZipPanic (ZipWriter σ)
  | [] => .ok s
  | op :: rest => do runOps C (← s.step C op) rest

/-- The operations that archive one (name, chunks) entry:
`start_file`, one `write` per chunk, `finish_file`. -/
def entryOps (name : List Nat) (chunks : List (List Nat)) : List ZipOp :=
  ZipOp.start_file name :: (chunks.map ZipOp.write ++ [ZipOp.finish_file])

/-- The operations that archive a whole entry list in order. -/
def sessionOps (entries : List (List Nat × List (List Nat))) : List ZipOp :=
  (entries.map fun e => entryOps e.1 e.2).flatten

/-- Drive a fresh session over the entry list and finish it, returning the
full byte stream delivered to the sink. -/
def runSession (C : Compressor σ) (entries : List (List Nat × List (List Nat))) :
    Except ZipPanic (List Nat) :=
  (runOps C ZipWriter.new (sessionOps entries)).map ZipWriter.finish

/-- The compressed-size counter of the open entry, `0` when no entry is
open.  During an entry, `bytes_written` lags the sink by exactly this
amount. -/
def openCompressed (s : ZipWriter σ) : Nat :=
  match s.current_file_state with
  | none => 0
  | some cfs => cfs.file_metadata.compressed_size

/-- The state machine of the documented protocol (`Empty → Open → Empty → …`):
`start_file` only on a closed state, `write`/`finish_file` only on an open
state, and the sequence ends closed (so that `finish` is legal).  The boolean
argument is whether an entry is currently open. -/
def wfOps : Bool → List ZipOp → Bool
  | false, [] => true
  | true, [] => false
  | b, op :: rest =>
    match b, op with
    | false, .start_file _ => wfOps true rest
    | true, .write _ => wfOps true rest
    | true, .finish_file => wfOps false rest
    | _, _ => false

/-! ## Closed forms for the produced stream -/

/-- The finalized metadata the session records for one entry archived while
`bytes_written = offset`, in the in-range case (no counter wrap). -/
def entryMd (C : Compressor σ) (offset : Nat) (name : List Nat)
    (chunks : List (List Nat)) : FileMetadata :=
  { crc32 := crc32Of chunks.flatten,
    uncompressed_size := chunks.flatten.length,
    compressed_size := (compressAll C chunks).length,
    offset := offset,
    file_name := name }

/-- The bytes one entry contributes to the stream: local file header,
compressed payload, data descriptor. -/
def entryBlock (C : Compressor σ) (name : List Nat) (chunks : List (List Nat)) : List Nat :=
  localFileHeaderBytes (entryMd C 0 name chunks) ++ compressAll C chunks ++
  dataDescriptorBytes (entryMd C 0 name chunks)

/-- The concatenation of all entry blocks, i.e. the stream up to the start of
the central directory. -/
def blocksOf (C : Compressor σ) (entries : List (List Nat × List (List Nat))) : List Nat :=
  (entries.map fun e => entryBlock C e.1 e.2).flatten

/-- The finalized metadata list for an entry sequence, starting from a given
`bytes_written`; offsets accumulate the block lengths. -/
def mdsOf (C : Compressor σ) : Nat → List (List Nat × List (List Nat)) → List FileMetadata
  | _, [] => []
  | bw, e :: rest =>
    entryMd C bw e.1 e.2 :: mdsOf C (bw + (entryBlock C e.1 e.2).length) rest

/-- The central directory bytes for a metadata list, one header per entry in
order. -/
def cdBytesOf (mds : List FileMetadata) : List Nat :=
  (mds.map centralDirectoryHeaderBytes).flatten

/-- The complete archive stream produced for an entry list, in the in-range
case: entry blocks, central directory, end-of-central-directory record. -/
def archiveBytes (C : Compressor σ) (entries : List (List Nat × List (List Nat))) : List Nat :=
  blocksOf C entries ++ cdBytesOf (mdsOf C 0 entries) ++
  endOfCentralDirectoryBytes (entries.length % u16Mod) (blocksOf C entries).length
    (cdBytesOf (mdsOf C 0 entries)).length

/-! ## A reference ZIP reader

Modelled from the spec: the round-trip property P3 quantifies over "a
reference ZIP reader", which is not part of this repository.  The reader
below follows PKWARE APPNOTE 6.3.x for the archives in scope: it locates the
end-of-central-directory record at the end of the stream, reads the entry
count and the central directory offset from it, walks the central directory
headers collecting (file name, compressed size, local header offset), and for
each entry reads the file-name length out of the local file header, extracts
the compressed payload that follows it, and decompresses it with the supplied
DEFLATE decoder `D`. -/

/-- Read a little-endian `u16` at position `i` (0 past the end). -/
def readU16 (s : List Nat) (i : Nat) : Nat := s.getD i 0 + 256 * s.getD (i + 1) 0

/-- Read a little-endian `u32` at position `i`. -/
def readU32 (s : List Nat) (i : Nat) : Nat := readU16 s i + 65536 * readU16 s (i + 2)

/-- Walk `count` central directory headers starting at `pos`, collecting
(file name, compressed size, local header offset) for each. -/
def parseCD (s : List Nat) (pos : Nat) : Nat → List (List Nat × Nat × Nat)
  | 0 => []
  | count + 1 =>
    let nameLen := readU16 s (pos + 28)
    let csize := readU32 s (pos + 20)
    let off := readU32 s (pos + 42)
    let name := (s.drop (pos + 46)).take nameLen
    (name, csize, off) :: parseCD s (pos + 46 + nameLen) count

/-- Given one central directory record, read the local file header at its
offset and decompress the payload that follows it. -/
def readLocalEntry (D : List Nat → List Nat) (s : List Nat)
    (e : List Nat × Nat × Nat) : List Nat × List Nat :=
  let nl := readU16 s (e.2.2 + 26)
  (e.1, D ((s.drop (e.2.2 + 30 + nl)).take e.2.1))

/-- The reference reader: end-of-central-directory record, central directory,
then each entry's payload via its local header. -/
def referenceRead (D : List Nat → List Nat) (s : List Nat) : List (List Nat × List Nat) :=
  let count := readU16 s (s.length - 22 + 10)
  let cdOffset := readU32 s (s.length - 22 + 16)
  (parseCD s cdOffset count).map (readLocalEntry D s)

/-! ## Primitive lemmas about the byte-level codec -/

theorem u16le_length (n : Nat) : (u16le n).length = 2 := rfl

theorem u32le_length (n : Nat) : (u32le n).length = 4 := rfl

theorem getD_append_len (a b : List Nat) (i : Nat) :
    (a ++ b).getD (a.length + i) 0 = b.getD i 0 := by
  rw [List.getD_append_right a b 0 _ (Nat.le_add_right _ _), Nat.add_sub_cancel_left]

theorem readU16_append (a b : List Nat) (i : Nat) :
    readU16 (a ++ b) (a.length + i) = readU16 b i := by
  simp only [readU16, Nat.add_assoc]
  rw [getD_append_len, getD_append_len]

theorem readU32_append (a b : List Nat) (i : Nat) :
    readU32 (a ++ b) (a.length + i) = readU32 b i := by
  simp only [readU32, Nat.add_assoc]
  rw [readU16_append, readU16_append]

theorem drop_append_len (a b : List Nat) (i : Nat) :
    (a ++ b).drop (a.length + i) = b.drop i := by
  induction a with
  | nil => simp
  | cons x xs ih => simp [Nat.succ_add, ih]

theorem readU16_u16le (v : Nat) (tail : List Nat) :
    readU16 (u16le v ++ tail) 0 = v % u16Mod := by
  simp [readU16, u16le, u16Mod, List.getD]
  omega

theorem readU32_u32le (v : Nat) (tail : List Nat) :
    readU32 (u32le v ++ tail) 0 = v % u32Mod := by
  simp [readU32, readU16, u32le, u32Mod, List.getD]
  omega

theorem readU16_at (pre mid tail : List Nat) (v i : Nat) (h : mid.length = i) :
    readU16 (pre ++ (mid ++ (u16le v ++ tail))) (pre.length + i) = v % u16Mod := by
  subst h
  rw [← List.append_assoc pre mid, ← List.length_append pre mid,
    ← Nat.add_zero (pre ++ mid).length, readU16_append, readU16_u16le]

theorem readU32_at (pre mid tail : List Nat) (v i : Nat) (h : mid.length = i) :
    readU32 (pre ++ (mid ++ (u32le v ++ tail))) (pre.length + i) = v % u32Mod := by
  subst h
  rw [← List.append_assoc pre mid, ← List.length_append pre mid,
    ← Nat.add_zero (pre ++ mid).length, readU32_append, readU32_u32le]

theorem drop_at (pre mid tail : List Nat) (i : Nat) (h : mid.length = i) :
    (pre ++ (mid ++ tail)).drop (pre.length + i) = tail := by
  subst h
  rw [← List.append_assoc pre mid, ← List.length_append pre mid,
    ← Nat.add_zero (pre ++ mid).length, drop_append_len, List.drop_zero]

theorem take_here (name tail : List Nat) : (name ++ tail).take name.length = name :=
  List.take_left name tail

/-! ## Record shapes: lengths and field extraction -/

theorem localFileHeaderBytes_length (f : FileMetadata) :
    (localFileHeaderBytes f).length = 30 + f.file_name.length := by
  simp [localFileHeaderBytes, u16le, u32le]
  omega

theorem dataDescriptorBytes_length (f : FileMetadata) :
    (dataDescriptorBytes f).length = 16 := by
  simp [dataDescriptorBytes, u32le]

theorem centralDirectoryHeaderBytes_length (f : FileMetadata) :
    (centralDirectoryHeaderBytes f).length = 46 + f.file_name.length := by
  simp [centralDirectoryHeaderBytes, u16le, u32le]
  omega

theorem endOfCentralDirectoryBytes_length (n o z : Nat) :
    (endOfCentralDirectoryBytes n o z).length = 22 := by
  simp [endOfCentralDirectoryBytes, u16le, u32le]

/-- The local file header only reads the entry's file name. -/
theorem localFileHeaderBytes_congr (f g : FileMetadata)
    (h : f.file_name = g.file_name) :
    localFileHeaderBytes f = localFileHeaderBytes g := by
  simp [localFileHeaderBytes, h]

/-- The data descriptor only reads the CRC and the two sizes. -/
theorem dataDescriptorBytes_congr (f g : FileMetadata) (h1 : f.crc32 = g.crc32)
    (h2 : f.compressed_size = g.compressed_size)
    (h3 : f.uncompressed_size = g.uncompressed_size) :
    dataDescriptorBytes f = dataDescriptorBytes g := by
  simp [dataDescriptorBytes, h1, h2, h3]

/-- Reading the file-name length field (offset 26) of a local file header. -/
theorem lfh_read_nameLen (pre tail : List Nat) (f : FileMetadata) :
    readU16 (pre ++ (localFileHeaderBytes f ++ tail)) (pre.length + 26) =
      f.file_name.length % u16Mod := by
  have hsh : localFileHeaderBytes f ++ tail =
      (u32le 0x04034b50 ++ u16le 0x0014 ++ u16le 8 ++ u16le 8 ++ u16le 0 ++
       u16le 0 ++ u32le 0 ++ u32le 0 ++ u32le 0) ++
      (u16le (f.file_name.length % u16Mod) ++ (u16le 0 ++ (f.file_name ++ tail))) := by
    simp [localFileHeaderBytes, List.append_assoc]
  rw [hsh, readU16_at _ _ _ _ 26 (by simp [u16le, u32le])]
  simp only [u16Mod]
  omega

/-- Dropping a local file header (30 + name-length bytes) from the stream. -/
theorem lfh_drop (pre tail : List Nat) (f : FileMetadata) :
    (pre ++ (localFileHeaderBytes f ++ tail)).drop
      (pre.length + (30 + f.file_name.length)) = tail := by
  have hsh : localFileHeaderBytes f ++ tail = localFileHeaderBytes f ++ tail := rfl
  rw [← List.append_assoc]
  have := drop_append_len (pre ++ localFileHeaderBytes f) tail 0
  rw [List.length_append, localFileHeaderBytes_length, Nat.add_assoc] at this
  simpa using this

/-- Reading the compressed-size field (offset 20) of a central directory
header. -/
theorem cdh_read_csize (pre tail : List Nat) (f : FileMetadata) :
    readU32 (pre ++ (centralDirectoryHeaderBytes f ++ tail)) (pre.length + 20) =
      f.compressed_size % u32Mod := by
  have hsh : centralDirectoryHeaderBytes f ++ tail =
      (u32le 0x02014b50 ++ u16le 814 ++ u16le 0x0014 ++ u16le 8 ++ u16le 8 ++
       u16le 0 ++ u16le 0 ++ u32le f.crc32) ++
      (u32le f.compressed_size ++ (u32le f.uncompressed_size ++
       (u16le (f.file_name.length % u16Mod) ++ (u16le 0 ++ (u16le 0 ++ (u16le 0 ++
       (u16le 0 ++ (u32le 2175008768 ++ (u32le f.offset ++
       (f.file_name ++ tail)))))))))) := by
    simp [centralDirectoryHeaderBytes, List.append_assoc]
  rw [hsh, readU32_at _ _ _ _ 20 (by simp [u16le, u32le])]

/-- Reading the file-name length field (offset 28) of a central directory
header. -/
theorem cdh_read_nameLen (pre tail : List Nat) (f : FileMetadata) :
    readU16 (pre ++ (centralDirectoryHeaderBytes f ++ tail)) (pre.length + 28) =
      f.file_name.length % u16Mod := by
  have hsh : centralDirectoryHeaderBytes f ++ tail =
      (u32le 0x02014b50 ++ u16le 814 ++ u16le 0x0014 ++ u16le 8 ++ u16le 8 ++
       u16le 0 ++ u16le 0 ++ u32le f.crc32 ++ u32le f.compressed_size ++
       u32le f.uncompressed_size) ++
      (u16le (f.file_name.length % u16Mod) ++ (u16le 0 ++ (u16le 0 ++ (u16le 0 ++
       (u16le 0 ++ (u32le 2175008768 ++ (u32le f.offset ++
       (f.file_name ++ tail)))))))) := by
    simp [centralDirectoryHeaderBytes, List.append_assoc]
  rw [hsh, readU16_at _ _ _ _ 28 (by simp [u16le, u32le])]
  simp only [u16Mod]
  omega

/-- Reading the local-header offset field (offset 42) of a central directory
header. -/
theorem cdh_read_offset (pre tail : List Nat) (f : FileMetadata) :
    readU32 (pre ++ (centralDirectoryHeaderBytes f ++ tail)) (pre.length + 42) =
      f.offset % u32Mod := by
  have hsh : centralDirectoryHeaderBytes f ++ tail =
      (u32le 0x02014b50 ++ u16le 814 ++ u16le 0x0014 ++ u16le 8 ++ u16le 8 ++
       u16le 0 ++ u16le 0 ++ u32le f.crc32 ++ u32le f.compressed_size ++
       u32le f.uncompressed_size ++ u16le (f.file_name.length % u16Mod) ++
       u16le 0 ++ u16le 0 ++ u16le 0 ++ u16le 0 ++ u32le 2175008768) ++
      (u32le f.offset ++ (f.file_name ++ tail)) := by
    simp [centralDirectoryHeaderBytes, List.append_assoc]
  rw [hsh, readU32_at _ _ _ _ 42 (by simp [u16le, u32le])]

/-- Extracting the file name (offset 46) of a central directory header. -/
theorem cdh_read_name (pre tail : List Nat) (f : FileMetadata) :
    ((pre ++ (centralDirectoryHeaderBytes f ++ tail)).drop (pre.length + 46)).take
      f.file_name.length = f.file_name := by
  have hsh : centralDirectoryHeaderBytes f ++ tail =
      (u32le 0x02014b50 ++ u16le 814 ++ u16le 0x0014 ++ u16le 8 ++ u16le 8 ++
       u16le 0 ++ u16le 0 ++ u32le f.crc32 ++ u32le f.compressed_size ++
       u32le f.uncompressed_size ++ u16le (f.file_name.length % u16Mod) ++
       u16le 0 ++ u16le 0 ++ u16le 0 ++ u16le 0 ++ u32le 2175008768 ++
       u32le f.offset) ++ (f.file_name ++ tail) := by
    simp [centralDirectoryHeaderBytes, List.append_assoc]
  rw [hsh, drop_at _ _ _ 46 (by simp [u16le, u32le]), take_here]

/-- Dropping a whole central directory header from the stream. -/
theorem cdh_drop (pre tail : List Nat) (f : FileMetadata) :
    (pre ++ (centralDirectoryHeaderBytes f ++ tail)).drop
      (pre.length + (46 + f.file_name.length)) = tail := by
  rw [← List.append_assoc]
  have := drop_append_len (pre ++ centralDirectoryHeaderBytes f) tail 0
  rw [List.length_append, centralDirectoryHeaderBytes_length, Nat.add_assoc] at this
  simpa using this

/-- Reading the total entry count (offset 10) of the end-of-central-directory
record. -/
theorem eocd_read_count (pre : List Nat) (n o z : Nat) :
    readU16 (pre ++ endOfCentralDirectoryBytes n o z) (pre.length + 10) =
      n % u16Mod := by
  have hsh : endOfCentralDirectoryBytes n o z =
      (u32le 0x06054b50 ++ u16le 0 ++ u16le 0 ++ u16le n) ++
      (u16le n ++ (u32le z ++ (u32le o ++ (u16le 0 ++ [])))) := by
    simp [endOfCentralDirectoryBytes, List.append_assoc]
  rw [hsh, readU16_at _ _ _ _ 10 (by simp [u16le, u32le])]

/-- Reading the central-directory size (offset 12) of the
end-of-central-directory record. -/
theorem eocd_read_size (pre : List Nat) (n o z : Nat) :
    readU32 (pre ++ endOfCentralDirectoryBytes n o z) (pre.length + 12) =
      z % u32Mod := by
  have hsh : endOfCentralDirectoryBytes n o z =
      (u32le 0x06054b50 ++ u16le 0 ++ u16le 0 ++ u16le n ++ u16le n) ++
      (u32le z ++ (u32le o ++ (u16le 0 ++ []))) := by
    simp [endOfCentralDirectoryBytes, List.append_assoc]
  rw [hsh, readU32_at _ _ _ _ 12 (by simp [u16le, u32le])]

/-- Reading the central-directory offset (offset 16) of the
end-of-central-directory record. -/
theorem eocd_read_offset (pre : List Nat) (n o z : Nat) :
    readU32 (pre ++ endOfCentralDirectoryBytes n o z) (pre.length + 16) =
      o % u32Mod := by
  have hsh : endOfCentralDirectoryBytes n o z =
      (u32le 0x06054b50 ++ u16le 0 ++ u16le 0 ++ u16le n ++ u16le n ++ u32le z) ++
      (u32le o ++ (u16le 0 ++ [])) := by
    simp [endOfCentralDirectoryBytes, List.append_assoc]
  rw [hsh, readU32_at _ _ _ _ 16 (by simp [u16le, u32le])]

/-! ## Closed-form lemmas about running the session -/

theorem crc32Update_append (c : Nat) (a b : List Nat) :
    crc32Update (crc32Update c a) b = crc32Update c (a ++ b) := by
  simp [crc32Update, List.foldl_append]

theorem entryBlock_length (C : Compressor σ) (name : List Nat)
    (chunks : List (List Nat)) :
    (entryBlock C name chunks).length =
      46 + name.length + (compressAll C chunks).length := by
  simp [entryBlock, localFileHeaderBytes_length, dataDescriptorBytes_length, entryMd]
  omega

theorem mdsOf_length (C : Compressor σ) (bw : Nat)
    (entries : List (List Nat × List (List Nat))) :
    (mdsOf C bw entries).length = entries.length := by
  induction entries generalizing bw with
  | nil => rfl
  | cons e rest ih => simp [mdsOf, ih]

theorem runOps_cons (C : Compressor σ) (s : ZipWriter σ) (op : ZipOp)
    (rest : List ZipOp) :
    runOps C s (op :: rest) = (s.step C op).bind fun s' => runOps C s' rest := rfl

theorem runOps_append (C : Compressor σ) (s : ZipWriter σ) (l₁ l₂ : List ZipOp) :
    runOps C s (l₁ ++ l₂) = (runOps C s l₁).bind fun s' => runOps C s' l₂ := by
  induction l₁ generalizing s with
  | nil => rfl
  | cons op rest ih =>
    rw [List.cons_append, runOps_cons, runOps_cons]
    cases s.step C op with
    | error e => rfl
    | ok s₁ => simp [Except.bind, ih]

/-- The `write` loop: feeding a list of chunks while an entry is open appends
the compressor's drained output to the sink, adds the raw and compressed byte
counts to the open entry's sizes (exactly, below `2^32`), folds the bytes
into the hasher, and leaves `bytes_written` and the finalized-entry list
untouched. -/
theorem runOps_writeChunks (C : Compressor σ) (chunks : List (List Nat)) :
    ∀ (s : ZipWriter σ) (cfs : CurrentFileState σ),
    s.current_file_state = some cfs →
    cfs.file_metadata.uncompressed_size + chunks.flatten.length < u32Mod →
    cfs.file_metadata.compressed_size +
      (compressList C cfs.encoder chunks).2.length < u32Mod →
    runOps C s (chunks.map ZipOp.write) = .ok
      { s with
        sink := s.sink ++ (compressList C cfs.encoder chunks).2,
        current_file_state := some
          { file_metadata :=
              { cfs.file_metadata with
                uncompressed_size :=
                  cfs.file_metadata.uncompressed_size + chunks.flatten.length,
                compressed_size :=
                  cfs.file_metadata.compressed_size +
                    (compressList C cfs.encoder chunks).2.length },
            hasher := crc32Update cfs.hasher chunks.flatten,
            encoder := (compressList C cfs.encoder chunks).1 } } := by
  induction chunks with
  | nil =>
    intro s cfs hcur hu hc
    obtain ⟨sink, fmeta, bw, cur⟩ := s
    obtain ⟨fm, hs, enc⟩ := cfs
    simp only at hcur
    subst hcur
    simp [runOps, compressList, crc32Update]
  | cons c cs ih =>
    intro s cfs hcur hu hc
    obtain ⟨sink, fmeta, bw, cur⟩ := s
    obtain ⟨fm, hs, enc⟩ := cfs
    simp only at hcur
    subst hcur
    have hflat : (List.flatten (c :: cs)).length =
        c.length + (List.flatten cs).length := by
      simp [List.flatten_cons]
    have hq : compressList C enc (c :: cs) =
        ((compressList C (C.write enc c).1 cs).1,
         (C.write enc c).2 ++ (compressList C (C.write enc c).1 cs).2) := rfl
    rw [hq] at hc ⊢
    simp only [List.length_append] at hc
    simp only at hu hc ⊢
    rw [hflat] at hu
    have e1 : (fm.uncompressed_size + c.length % u32Mod) % u32Mod =
        fm.uncompressed_size + c.length := by
      have h1 : c.length % u32Mod = c.length :=
        Nat.mod_eq_of_lt (by simp only [u32Mod] at hu ⊢; omega)
      rw [h1]
      exact Nat.mod_eq_of_lt (by simp only [u32Mod] at hu ⊢; omega)
    have e2 : (fm.compressed_size + (C.write enc c).2.length % u32Mod) % u32Mod =
        fm.compressed_size + (C.write enc c).2.length := by
      have h1 : (C.write enc c).2.length % u32Mod = (C.write enc c).2.length :=
        Nat.mod_eq_of_lt (by simp only [u32Mod] at hc ⊢; omega)
      rw [h1]
      exact Nat.mod_eq_of_lt (by simp only [u32Mod] at hc ⊢; omega)
    rw [List.map_cons, runOps_cons]
    have hw : ZipWriter.step C ⟨sink, fmeta, bw, some ⟨fm, hs, enc⟩⟩ (ZipOp.write c) =
        .ok ⟨sink ++ (C.write enc c).2, fmeta, bw, some
          ⟨⟨fm.crc32,
            (fm.uncompressed_size + c.length % u32Mod) % u32Mod,
            (fm.compressed_size + (C.write enc c).2.length % u32Mod) % u32Mod,
            fm.offset, fm.file_name⟩,
           crc32Update hs c, (C.write enc c).1⟩⟩ := rfl
    rw [hw]
    show runOps C _ (cs.map ZipOp.write) = _
    rw [e1, e2]
    rw [ih ⟨sink ++ (C.write enc c).2, fmeta, bw, some
          ⟨⟨fm.crc32, fm.uncompressed_size + c.length,
            fm.compressed_size + (C.write enc c).2.length,
            fm.offset, fm.file_name⟩, crc32Update hs c, (C.write enc c).1⟩⟩
        ⟨⟨fm.crc32, fm.uncompressed_size + c.length,
          fm.compressed_size + (C.write enc c).2.length,
          fm.offset, fm.file_name⟩, crc32Update hs c, (C.write enc c).1⟩
        rfl (by simp only [u32Mod] at hu ⊢; omega)
        (by simp only [u32Mod] at hc ⊢; omega)]
    simp [List.append_assoc, Nat.add_assoc, crc32Update_append, hflat]

theorem compressAll_parts (C : Compressor σ) (chunks : List (List Nat)) :
    compressAll C chunks =
      (compressList C C.init chunks).2 ++ C.finish (compressList C C.init chunks).1 := rfl

theorem entryBlock_parts (C : Compressor σ) (name : List Nat)
    (chunks : List (List Nat)) (b : Nat) :
    entryBlock C name chunks =
      localFileHeaderBytes ⟨0, 0, 0, b, name⟩ ++
      ((compressList C C.init chunks).2 ++
       (C.finish (compressList C C.init chunks).1 ++
        dataDescriptorBytes (entryMd C b name chunks))) := by
  simp [entryBlock, compressAll, entryMd, localFileHeaderBytes, dataDescriptorBytes,
    List.append_assoc]

/-- Archiving one entry from a closed state: `start_file`, the writes, and
`finish_file` succeed, append exactly the entry block to the sink, record the
finalized metadata (with `offset` equal to the starting `bytes_written`), add
the block length to `bytes_written`, and leave no entry open.  The byte
counters stay exact as long as they remain below `2^32`. -/
theorem runOps_entry (C : Compressor σ) (name : List Nat) (chunks : List (List Nat))
    (s : ZipWriter σ)
    (hnone : s.current_file_state = none)
    (hflat : chunks.flatten.length < u32Mod)
    (hbw : s.bytes_written + (entryBlock C name chunks).length < u32Mod) :
    runOps C s (entryOps name chunks) = .ok
      { sink := s.sink ++ entryBlock C name chunks,
        file_metadata := s.file_metadata ++ [entryMd C s.bytes_written name chunks],
        bytes_written := s.bytes_written + (entryBlock C name chunks).length,
        current_file_state := none } := by
  obtain ⟨sink, fmeta, bw, cur⟩ := s
  simp only at hnone hbw ⊢
  subst hnone
  have hblock := entryBlock_length C name chunks
  rw [hblock] at hbw
  have hcomplen : (compressAll C chunks).length =
      (compressList C C.init chunks).2.length +
      (C.finish (compressList C C.init chunks).1).length := by
    rw [compressAll_parts, List.length_append]
  -- the start_file step
  have hname : name.length % u32Mod = name.length :=
    Nat.mod_eq_of_lt (by simp only [u32Mod] at hbw ⊢; omega)
  have hsize : localFileHeaderSize ⟨0, 0, 0, bw, name⟩ = 30 + name.length := by
    simp only [localFileHeaderSize, hname]
    exact Nat.mod_eq_of_lt (by simp only [u32Mod] at hbw ⊢; omega)
  have hbw1 : (bw + localFileHeaderSize ⟨0, 0, 0, bw, name⟩) % u32Mod =
      bw + (30 + name.length) := by
    rw [hsize]
    exact Nat.mod_eq_of_lt (by simp only [u32Mod] at hbw ⊢; omega)
  rw [entryOps, runOps_cons]
  have hw1 : ZipWriter.step C ⟨sink, fmeta, bw, none⟩ (ZipOp.start_file name) =
      .ok ⟨sink ++ localFileHeaderBytes ⟨0, 0, 0, bw, name⟩, fmeta,
           (bw + localFileHeaderSize ⟨0, 0, 0, bw, name⟩) % u32Mod,
           some ⟨⟨0, 0, 0, bw, name⟩, crc32Init, C.init⟩⟩ := rfl
  rw [hw1]
  show runOps C _ (chunks.map ZipOp.write ++ [ZipOp.finish_file]) = _
  rw [hbw1, runOps_append]
  rw [runOps_writeChunks C chunks _ ⟨⟨0, 0, 0, bw, name⟩, crc32Init, C.init⟩ rfl
    (by simpa using hflat)
    (by simp only [u32Mod] at hbw ⊢; simp only [hcomplen] at hbw; simp; omega)]
  simp only [Except.bind]
  rw [runOps_cons]
  have hw2 : ∀ (sk : List Nat) (fm : List FileMetadata) (b : Nat)
      (md : FileMetadata) (hs : Nat) (enc : σ),
      ZipWriter.step C ⟨sk, fm, b, some ⟨md, hs, enc⟩⟩ ZipOp.finish_file =
        .ok ⟨sk ++ C.finish enc ++ dataDescriptorBytes (finalizeMd C md hs enc),
             fm ++ [finalizeMd C md hs enc],
             ((b + (finalizeMd C md hs enc).compressed_size) % u32Mod + 16) % u32Mod,
             none⟩ := fun _ _ _ _ _ _ => rfl
  rw [hw2]
  dsimp only [finalizeMd]
  simp only [Except.bind]
  show Except.ok _ = _
  -- now close the record equality component by component
  have hrem : (C.finish (compressList C C.init chunks).1).length % u32Mod =
      (C.finish (compressList C C.init chunks).1).length :=
    Nat.mod_eq_of_lt (by simp only [u32Mod] at hbw ⊢; simp only [hcomplen] at hbw; omega)
  have hcs : ((0 : Nat) + (compressList C C.init chunks).2.length +
      (C.finish (compressList C C.init chunks).1).length % u32Mod) % u32Mod =
      (compressAll C chunks).length := by
    rw [hrem, Nat.zero_add, ← List.length_append, ← compressAll_parts]
    exact Nat.mod_eq_of_lt (by simp only [u32Mod] at hbw ⊢; omega)
  simp only [Except.ok.injEq, ZipWriter.mk.injEq, Nat.zero_add]
  have hcs0 : ((compressList C C.init chunks).2.length +
      (C.finish (compressList C C.init chunks).1).length % u32Mod) % u32Mod =
      (compressAll C chunks).length := by
    rw [hrem, ← List.length_append, ← compressAll_parts]
    exact Nat.mod_eq_of_lt (by simp only [u32Mod] at hbw ⊢; omega)
  have hcrc : crc32Finalize (crc32Update crc32Init chunks.flatten) =
      crc32Of chunks.flatten := rfl
  have hmd : ({ crc32 := crc32Of chunks.flatten,
                uncompressed_size := chunks.flatten.length,
                compressed_size := (compressAll C chunks).length,
                offset := bw, file_name := name } : FileMetadata) =
      entryMd C bw name chunks := rfl
  refine ⟨?_, ?_, ?_, trivial⟩
  · -- sink component
    rw [entryBlock_parts C name chunks bw]
    simp only [List.append_assoc]
    rw [hcrc, hcs0, hmd]
  · -- finalized metadata component
    rw [hcrc, hcs0, hmd]
  · -- bytes_written component
    rw [hcs0]
    have h1 : (bw + (30 + name.length) + (compressAll C chunks).length) % u32Mod =
        bw + (30 + name.length) + (compressAll C chunks).length :=
      Nat.mod_eq_of_lt (by simp only [u32Mod] at hbw ⊢; omega)
    rw [h1, Nat.mod_eq_of_lt (by simp only [u32Mod] at hbw ⊢; omega), hblock]
    omega

/-- Archiving a list of entries from a closed state: the sink receives the
concatenation of the entry blocks, the finalized metadata accumulates with
offsets equal to the running `bytes_written`, and `bytes_written` advances by
the total block length. -/
theorem runOps_session (C : Compressor σ) (entries : List (List Nat × List (List Nat))) :
    ∀ (s : ZipWriter σ),
    s.current_file_state = none →
    (∀ e ∈ entries, e.2.flatten.length < u32Mod) →
    s.bytes_written + (blocksOf C entries).length < u32Mod →
    runOps C s (sessionOps entries) = .ok
      { sink := s.sink ++ blocksOf C entries,
        file_metadata := s.file_metadata ++ mdsOf C s.bytes_written entries,
        bytes_written := s.bytes_written + (blocksOf C entries).length,
        current_file_state := none } := by
  induction entries with
  | nil =>
    intro s h1 h2 h3
    obtain ⟨sink, fmeta, bw, cur⟩ := s
    simp only at h1
    subst h1
    simp [sessionOps, blocksOf, mdsOf, runOps]
  | cons e rest ih =>
    intro s h1 h2 h3
    have hsess : sessionOps (e :: rest) = entryOps e.1 e.2 ++ sessionOps rest := by
      simp [sessionOps]
    have hblen : (blocksOf C (e :: rest)).length =
        (entryBlock C e.1 e.2).length + (blocksOf C rest).length := by
      simp [blocksOf]
    rw [hsess, runOps_append,
      runOps_entry C e.1 e.2 s h1 (h2 e (by simp))
        (by rw [hblen] at h3; omega)]
    simp only [Except.bind]
    rw [ih _ rfl (fun x hx => h2 x (by simp [hx]))
      (by show s.bytes_written + (entryBlock C e.1 e.2).length +
            (blocksOf C rest).length < u32Mod
          rw [hblen] at h3; omega)]
    simp only [Except.ok.injEq, ZipWriter.mk.injEq]
    refine ⟨?_, ?_, ?_, trivial⟩
    · simp [blocksOf, List.append_assoc]
    · simp [mdsOf, List.append_assoc]
    · rw [hblen]
      omega

/-- The central directory loop of `finish`: folding `finishStep` over the
metadata appends the directory headers to the sink and adds their total
length to `bytes_written`, exactly, below `2^32`. -/
theorem finish_loop (mds : List FileMetadata) :
    ∀ (sink : List Nat) (bw : Nat),
    bw + (cdBytesOf mds).length < u32Mod →
    mds.foldl finishStep (sink, bw) =
      (sink ++ cdBytesOf mds, bw + (cdBytesOf mds).length) := by
  induction mds with
  | nil =>
    intro sink bw h
    simp [cdBytesOf]
  | cons f rest ih =>
    intro sink bw h
    have hcd : (cdBytesOf (f :: rest)).length =
        (46 + f.file_name.length) + (cdBytesOf rest).length := by
      simp [cdBytesOf, centralDirectoryHeaderBytes_length]
    rw [List.foldl_cons]
    have hstep : finishStep (sink, bw) f =
        (sink ++ centralDirectoryHeaderBytes f,
         (bw + centralDirectoryHeaderSize f) % u32Mod) := rfl
    have hsz : (bw + centralDirectoryHeaderSize f) % u32Mod =
        bw + (46 + f.file_name.length) := by
      rw [hcd] at h
      have hn : f.file_name.length % u32Mod = f.file_name.length :=
        Nat.mod_eq_of_lt (by simp only [u32Mod] at h ⊢; omega)
      simp only [centralDirectoryHeaderSize, hn]
      have hinner : (46 + f.file_name.length) % u32Mod = 46 + f.file_name.length :=
        Nat.mod_eq_of_lt (by simp only [u32Mod] at h ⊢; omega)
      rw [hinner]
      exact Nat.mod_eq_of_lt (by simp only [u32Mod] at h ⊢; omega)
    rw [hstep, hsz, ih _ _ (by rw [hcd] at h; omega)]
    rw [hcd]
    simp [cdBytesOf, List.append_assoc]
    omega

/-- The operation `finish` in closed form: the final stream is the sink contents, the
central directory (one header per finalized entry, in order), and the
end-of-central-directory record carrying the truncated entry count, the
central directory offset `bytes_written`, and the central directory byte
length as its size. -/
theorem finish_eq (s : ZipWriter σ)
    (h : s.bytes_written + (cdBytesOf s.file_metadata).length < u32Mod) :
    s.finish = s.sink ++ cdBytesOf s.file_metadata ++
      endOfCentralDirectoryBytes (s.file_metadata.length % u16Mod) s.bytes_written
        (cdBytesOf s.file_metadata).length := by
  have hloop := finish_loop s.file_metadata s.sink s.bytes_written h
  have hsz : (s.bytes_written + (cdBytesOf s.file_metadata).length + u32Mod -
      s.bytes_written) % u32Mod = (cdBytesOf s.file_metadata).length := by
    simp only [u32Mod] at h ⊢
    omega
  simp only [ZipWriter.finish, hloop, hsz, List.append_assoc]

/-- The whole session in closed form: driving a fresh session over an entry
list and finishing it produces exactly `archiveBytes`, provided the stream
stays below `2^32` bytes and every payload is below `2^32` bytes. -/
theorem runSession_eq (C : Compressor σ) (entries : List (List Nat × List (List Nat)))
    (h1 : ∀ e ∈ entries, e.2.flatten.length < u32Mod)
    (h2 : (blocksOf C entries).length + (cdBytesOf (mdsOf C 0 entries)).length < u32Mod) :
    runSession C entries = .ok (archiveBytes C entries) := by
  unfold runSession
  rw [runOps_session C entries ZipWriter.new rfl h1
    (by simp only [ZipWriter.new]; omega)]
  simp only [Except.map, ZipWriter.new]
  rw [finish_eq _ (by simp only [List.nil_append, Nat.zero_add]; omega)]
  simp only [List.nil_append, Nat.zero_add, archiveBytes, mdsOf_length]

/-- Bounds on the recorded metadata: below the stream-size bound, every
finalized entry has an in-range name length, compressed size, and offset. -/
theorem mdsOf_bounds (C : Compressor σ) (entries : List (List Nat × List (List Nat))) :
    ∀ (b : Nat),
    (∀ e ∈ entries, e.1.length < u16Mod) →
    b + (blocksOf C entries).length < u32Mod →
    ∀ md ∈ mdsOf C b entries,
      md.file_name.length < u16Mod ∧ md.compressed_size < u32Mod ∧
      md.offset < u32Mod := by
  induction entries with
  | nil => intro b hn hb md hmd; simp [mdsOf] at hmd
  | cons e rest ih =>
    intro b hn hb md hmd
    have hblen : (blocksOf C (e :: rest)).length =
        (entryBlock C e.1 e.2).length + (blocksOf C rest).length := by
      simp [blocksOf]
    have hbl := entryBlock_length C e.1 e.2
    simp only [mdsOf, List.mem_cons] at hmd
    rcases hmd with h | h
    · subst h
      refine ⟨hn e (by simp), ?_, ?_⟩
      · show (compressAll C e.2).length < u32Mod
        rw [hblen, hbl] at hb
        omega
      · show b < u32Mod
        omega
    · exact ih (b + (entryBlock C e.1 e.2).length)
        (fun x hx => hn x (by simp [hx]))
        (by rw [hblen] at hb; omega) md h

/-- Walking the central directory with the reference reader recovers each
entry's name, compressed size, and offset, in order. -/
theorem parseCD_go (mds : List FileMetadata) :
    ∀ (pre post : List Nat),
    (∀ md ∈ mds, md.file_name.length < u16Mod ∧ md.compressed_size < u32Mod ∧
      md.offset < u32Mod) →
    parseCD (pre ++ (cdBytesOf mds ++ post)) pre.length mds.length =
      mds.map fun md => (md.file_name, md.compressed_size, md.offset) := by
  induction mds with
  | nil => intro pre post h; simp [parseCD]
  | cons f rest ih =>
    intro pre post h
    obtain ⟨hf1, hf2, hf3⟩ := h f (by simp)
    have hrest : ∀ md ∈ rest, md.file_name.length < u16Mod ∧
        md.compressed_size < u32Mod ∧ md.offset < u32Mod :=
      fun x hx => h x (List.mem_cons_of_mem f hx)
    have hcd : cdBytesOf (f :: rest) ++ post =
        centralDirectoryHeaderBytes f ++ (cdBytesOf rest ++ post) := by
      simp [cdBytesOf, List.append_assoc]
    rw [hcd]
    simp only [List.length_cons, parseCD, List.map_cons]
    rw [cdh_read_nameLen pre (cdBytesOf rest ++ post) f, Nat.mod_eq_of_lt hf1,
      cdh_read_csize pre (cdBytesOf rest ++ post) f, Nat.mod_eq_of_lt hf2,
      cdh_read_offset pre (cdBytesOf rest ++ post) f, Nat.mod_eq_of_lt hf3,
      cdh_read_name pre (cdBytesOf rest ++ post) f]
    refine congrArg (fun l => (f.file_name, f.compressed_size, f.offset) :: l) ?_
    have hidx : pre.length + 46 + f.file_name.length =
        (pre ++ centralDirectoryHeaderBytes f).length := by
      rw [List.length_append, centralDirectoryHeaderBytes_length]
      omega
    have hassoc : pre ++ (centralDirectoryHeaderBytes f ++ (cdBytesOf rest ++ post)) =
        (pre ++ centralDirectoryHeaderBytes f) ++ (cdBytesOf rest ++ post) := by
      simp [List.append_assoc]
    rw [hidx, hassoc]
    exact ih (pre ++ centralDirectoryHeaderBytes f) post hrest

/-- The lemma `lfh_read_nameLen` specialized to an `entryMd` header, with the
projections computed. -/
theorem lfh_read_nameLen_md (C : Compressor σ) (pre tailX : List Nat) (b : Nat)
    (name : List Nat) (chunks : List (List Nat)) :
    readU16 (pre ++ (localFileHeaderBytes (entryMd C b name chunks) ++ tailX))
      (pre.length + 26) = name.length % u16Mod :=
  lfh_read_nameLen pre tailX (entryMd C b name chunks)

/-- The lemma `lfh_drop` specialized to an `entryMd` header, with the projections
computed. -/
theorem lfh_drop_md (C : Compressor σ) (pre tailX : List Nat) (b : Nat)
    (name : List Nat) (chunks : List (List Nat)) :
    (pre ++ (localFileHeaderBytes (entryMd C b name chunks) ++ tailX)).drop
      (pre.length + (30 + name.length)) = tailX :=
  lfh_drop pre tailX (entryMd C b name chunks)

/-- Extracting each entry by its recorded offset: the reader finds the local
file header at the offset, skips it, and takes exactly `compressed_size`
bytes, recovering the compressed payload. -/
theorem extract_go (C : Compressor σ) (D : List Nat → List Nat)
    (entries : List (List Nat × List (List Nat))) :
    ∀ (pre tail : List Nat),
    (∀ e ∈ entries, e.1.length < u16Mod) →
    (mdsOf C pre.length entries).map
        (fun md => readLocalEntry D (pre ++ (blocksOf C entries ++ tail))
          (md.file_name, md.compressed_size, md.offset)) =
      entries.map fun e => (e.1, D (compressAll C e.2)) := by
  induction entries with
  | nil => intro pre tail hn; simp [mdsOf, blocksOf]
  | cons e rest ih =>
    intro pre tail hn
    have hS1 : blocksOf C (e :: rest) ++ tail =
        localFileHeaderBytes (entryMd C 0 e.1 e.2) ++
          (compressAll C e.2 ++
            (dataDescriptorBytes (entryMd C 0 e.1 e.2) ++ (blocksOf C rest ++ tail))) := by
      simp [blocksOf, entryBlock, List.append_assoc]
    rw [hS1]
    simp only [mdsOf, List.map_cons]
    have hhead : readLocalEntry D
        (pre ++ (localFileHeaderBytes (entryMd C 0 e.1 e.2) ++
          (compressAll C e.2 ++
            (dataDescriptorBytes (entryMd C 0 e.1 e.2) ++ (blocksOf C rest ++ tail)))))
        ((entryMd C pre.length e.1 e.2).file_name,
         (entryMd C pre.length e.1 e.2).compressed_size,
         (entryMd C pre.length e.1 e.2).offset) =
        (e.1, D (compressAll C e.2)) := by
      have hfn : (entryMd C pre.length e.1 e.2).file_name = e.1 := rfl
      have hcs : (entryMd C pre.length e.1 e.2).compressed_size =
          (compressAll C e.2).length := rfl
      have hoff : (entryMd C pre.length e.1 e.2).offset = pre.length := rfl
      rw [hfn, hcs, hoff]
      simp only [readLocalEntry]
      rw [lfh_read_nameLen_md, Nat.mod_eq_of_lt (hn e (by simp)),
        (by omega : pre.length + 30 + e.1.length = pre.length + (30 + e.1.length)),
        lfh_drop_md, take_here]
    rw [hhead]
    refine congrArg (fun l => (e.1, D (compressAll C e.2)) :: l) ?_
    have hidx2 : pre.length + (entryBlock C e.1 e.2).length =
        (pre ++ entryBlock C e.1 e.2).length := (List.length_append _ _).symm
    have hassoc : pre ++ (localFileHeaderBytes (entryMd C 0 e.1 e.2) ++
          (compressAll C e.2 ++
            (dataDescriptorBytes (entryMd C 0 e.1 e.2) ++ (blocksOf C rest ++ tail)))) =
        (pre ++ entryBlock C e.1 e.2) ++ (blocksOf C rest ++ tail) := by
      simp [entryBlock, List.append_assoc]
    rw [hidx2, hassoc]
    exact ih (pre ++ entryBlock C e.1 e.2) tail (fun x hx => hn x (by simp [hx]))

/-- Reference-reader correctness on the closed-form archive: the reader
recovers each entry's name together with the decompression of its compressed
payload, in order. -/
theorem referenceRead_archive (C : Compressor σ) (D : List Nat → List Nat)
    (entries : List (List Nat × List (List Nat)))
    (hname : ∀ e ∈ entries, e.1.length < u16Mod)
    (hcount : entries.length < u16Mod)
    (hsize : (blocksOf C entries).length +
      (cdBytesOf (mdsOf C 0 entries)).length < u32Mod) :
    referenceRead D (archiveBytes C entries) =
      entries.map fun e => (e.1, D (compressAll C e.2)) := by
  have hlen : (archiveBytes C entries).length =
      (blocksOf C entries ++ cdBytesOf (mdsOf C 0 entries)).length + 22 := by
    simp [archiveBytes, endOfCentralDirectoryBytes_length]
    omega
  have hS : archiveBytes C entries =
      (blocksOf C entries ++ cdBytesOf (mdsOf C 0 entries)) ++
        endOfCentralDirectoryBytes (entries.length % u16Mod)
          (blocksOf C entries).length (cdBytesOf (mdsOf C 0 entries)).length := by
    simp [archiveBytes, List.append_assoc]
  have hidx10 : (archiveBytes C entries).length - 22 + 10 =
      (blocksOf C entries ++ cdBytesOf (mdsOf C 0 entries)).length + 10 := by
    rw [hlen]; omega
  have hidx16 : (archiveBytes C entries).length - 22 + 16 =
      (blocksOf C entries ++ cdBytesOf (mdsOf C 0 entries)).length + 16 := by
    rw [hlen]; omega
  have hcnt : readU16 (archiveBytes C entries)
      ((archiveBytes C entries).length - 22 + 10) = entries.length := by
    rw [hidx10, hS, eocd_read_count]
    simp only [u16Mod] at hcount ⊢
    omega
  have hoff : readU32 (archiveBytes C entries)
      ((archiveBytes C entries).length - 22 + 16) = (blocksOf C entries).length := by
    rw [hidx16, hS, eocd_read_offset]
    simp only [u32Mod] at hsize ⊢
    omega
  have hbounds := mdsOf_bounds C entries 0 hname (by omega)
  simp only [referenceRead]
  rw [hcnt, hoff]
  rw [show entries.length = (mdsOf C 0 entries).length from (mdsOf_length C 0 entries).symm]
  have hP : (blocksOf C entries).length = (blocksOf C entries : List Nat).length := rfl
  rw [show archiveBytes C entries = blocksOf C entries ++
        (cdBytesOf (mdsOf C 0 entries) ++
          endOfCentralDirectoryBytes ((mdsOf C 0 entries).length % u16Mod)
            (blocksOf C entries).length (cdBytesOf (mdsOf C 0 entries)).length)
      from by simp [archiveBytes, mdsOf_length]]
  rw [parseCD_go (mdsOf C 0 entries) (blocksOf C entries) _ hbounds]
  rw [List.map_map]
  have hext := extract_go C D entries ([] : List Nat)
    (cdBytesOf (mdsOf C 0 entries) ++
      endOfCentralDirectoryBytes ((mdsOf C 0 entries).length % u16Mod)
        (blocksOf C entries).length (cdBytesOf (mdsOf C 0 entries)).length)
    hname
  simpa [Function.comp] using hext

/-! ## Further helper lemmas for the individual claims -/

theorem cdBytesOf_length (mds : List FileMetadata) :
    (cdBytesOf mds).length = (mds.map fun f => 46 + f.file_name.length).sum := by
  induction mds with
  | nil => rfl
  | cons f rest ih =>
    simp only [cdBytesOf, List.map_cons, List.flatten_cons, List.length_append,
      centralDirectoryHeaderBytes_length, List.sum_cons]
    simp only [cdBytesOf] at ih
    omega

theorem passthrough_compressList (chunks : List (List Nat)) :
    ∀ st : Unit, compressList passthroughC st chunks = ((), chunks.flatten) := by
  induction chunks with
  | nil => intro st; rfl
  | cons c cs ih =>
    intro st
    have hw : passthroughC.write st c = ((), c) := rfl
    simp only [compressList, hw, ih]
    simp [List.flatten_cons]

theorem passthrough_compressAll (chunks : List (List Nat)) :
    compressAll passthroughC chunks = chunks.flatten := by
  have h := passthrough_compressList chunks passthroughC.init
  rw [compressAll_parts, h]
  simp [passthroughC]

/-- Every successful step appends to the sink (the sink is write-only). -/
theorem step_sink_extends (C : Compressor σ) (s : ZipWriter σ) (op : ZipOp)
    (s₁ : ZipWriter σ) (h : s.step C op = .ok s₁) :
    ∃ t, s₁.sink = s.sink ++ t := by
  cases op with
  | start_file name =>
    cases hc : s.current_file_state with
    | some cfs =>
      exfalso
      rw [ZipWriter.step, ZipWriter.start_file, hc] at h
      exact Except.noConfusion h
    | none =>
      rw [ZipWriter.step, ZipWriter.start_file, hc] at h
      obtain ⟨rfl⟩ := Except.ok.inj h
      exact ⟨_, rfl⟩
  | write buf =>
    cases hc : s.current_file_state with
    | none =>
      exfalso
      rw [ZipWriter.step, ZipWriter.write, hc] at h
      exact Except.noConfusion h
    | some cfs =>
      rw [ZipWriter.step, ZipWriter.write, hc] at h
      obtain ⟨rfl⟩ := Except.ok.inj h
      exact ⟨_, rfl⟩
  | finish_file =>
    cases hc : s.current_file_state with
    | none =>
      exfalso
      rw [ZipWriter.step, ZipWriter.finish_file, hc] at h
      exact Except.noConfusion h
    | some cfs =>
      rw [ZipWriter.step, ZipWriter.finish_file, hc] at h
      obtain ⟨rfl⟩ := Except.ok.inj h
      exact ⟨_, List.append_assoc _ _ _⟩

/-- A successful run only ever appends to the sink. -/
theorem runOps_sink_extends (C : Compressor σ) (ops : List ZipOp) :
    ∀ (s s' : ZipWriter σ), runOps C s ops = .ok s' → ∃ t, s'.sink = s.sink ++ t := by
  induction ops with
  | nil =>
    intro s s' h
    obtain ⟨rfl⟩ := Except.ok.inj h
    exact ⟨[], (List.append_nil _).symm⟩
  | cons op rest ih =>
    intro s s' h
    rw [runOps_cons] at h
    cases hs : s.step C op with
    | error e => rw [hs] at h; exact Except.noConfusion h
    | ok s₁ =>
      rw [hs] at h
      simp only [Except.bind] at h
      obtain ⟨t₁, ht₁⟩ := step_sink_extends C s op s₁ hs
      obtain ⟨t₂, ht₂⟩ := ih s₁ s' h
      exact ⟨t₁ ++ t₂, by rw [ht₂, ht₁, List.append_assoc]⟩

/-- One step preserves the byte-accounting invariant
`bytes_written + openCompressed = |sink|`, as long as the sink stays below
`2^32` bytes. -/
theorem step_invariant (C : Compressor σ) (s : ZipWriter σ) (op : ZipOp)
    (s₁ : ZipWriter σ) (h : s.step C op = .ok s₁)
    (inv : s.bytes_written + openCompressed s = s.sink.length)
    (hlt : s₁.sink.length < u32Mod) :
    s₁.bytes_written + openCompressed s₁ = s₁.sink.length := by
  obtain ⟨sink, fmeta, bw, cur⟩ := s
  cases op with
  | start_file name =>
    cases cur with
    | some cfs => exact Except.noConfusion h
    | none =>
      obtain ⟨rfl⟩ := Except.ok.inj h
      simp only [openCompressed, ZipWriter.bytes_written, ZipWriter.sink,
        List.length_append, localFileHeaderBytes_length] at inv hlt ⊢
      have hname : name.length % u32Mod = name.length :=
        Nat.mod_eq_of_lt (by simp only [u32Mod] at hlt ⊢; omega)
      simp only [localFileHeaderSize, hname]
      have h30 : (30 + name.length) % u32Mod = 30 + name.length :=
        Nat.mod_eq_of_lt (by simp only [u32Mod] at hlt ⊢; omega)
      rw [h30, Nat.mod_eq_of_lt (by simp only [u32Mod] at hlt inv ⊢; omega)]
      omega
  | write buf =>
    cases cur with
    | none => exact Except.noConfusion h
    | some cfs =>
      obtain ⟨rfl⟩ := Except.ok.inj h
      obtain ⟨fm, hs, enc⟩ := cfs
      simp only [openCompressed, ZipWriter.bytes_written, ZipWriter.sink,
        List.length_append] at inv hlt ⊢
      have holen : (C.write enc buf).2.length % u32Mod = (C.write enc buf).2.length :=
        Nat.mod_eq_of_lt (by simp only [u32Mod] at hlt ⊢; omega)
      rw [holen, Nat.mod_eq_of_lt (by simp only [u32Mod] at hlt inv ⊢; omega)]
      omega
  | finish_file =>
    cases cur with
    | none => exact Except.noConfusion h
    | some cfs =>
      obtain ⟨rfl⟩ := Except.ok.inj h
      obtain ⟨fm, hs, enc⟩ := cfs
      simp only [openCompressed, ZipWriter.bytes_written, ZipWriter.sink, finalizeMd,
        List.length_append, dataDescriptorBytes_length] at inv hlt ⊢
      have hrlen : (C.finish enc).length % u32Mod = (C.finish enc).length :=
        Nat.mod_eq_of_lt (by simp only [u32Mod] at hlt ⊢; omega)
      rw [hrlen,
        Nat.mod_eq_of_lt (show fm.compressed_size + (C.finish enc).length < u32Mod by
          simp only [u32Mod] at hlt inv ⊢; omega),
        Nat.mod_eq_of_lt (show bw + (fm.compressed_size + (C.finish enc).length) < u32Mod by
          simp only [u32Mod] at hlt inv ⊢; omega),
        Nat.mod_eq_of_lt (by simp only [u32Mod] at hlt inv ⊢; omega)]
      omega

/-- The byte-accounting invariant holds at the end of every successful run
whose final sink is below `2^32` bytes. -/
theorem runOps_invariant (C : Compressor σ) (ops : List ZipOp) :
    ∀ (s s' : ZipWriter σ), runOps C s ops = .ok s' →
    s.bytes_written + openCompressed s = s.sink.length →
    s'.sink.length < u32Mod →
    s'.bytes_written + openCompressed s' = s'.sink.length := by
  induction ops with
  | nil =>
    intro s s' h inv hlt
    obtain ⟨rfl⟩ := Except.ok.inj h
    exact inv
  | cons op rest ih =>
    intro s s' h inv hlt
    rw [runOps_cons] at h
    cases hs : s.step C op with
    | error e => rw [hs] at h; exact Except.noConfusion h
    | ok s₁ =>
      rw [hs] at h
      simp only [Except.bind] at h
      obtain ⟨t, ht⟩ := runOps_sink_extends C rest s₁ s' h
      have hlt₁ : s₁.sink.length < u32Mod := by
        rw [ht, List.length_append] at hlt
        omega
      exact ih s₁ s' h (step_invariant C s op s₁ hs inv hlt₁) hlt

/-- Running a protocol-conforming operation sequence from a state whose
openness matches never panics and ends with no entry open. -/
theorem wfOps_runOps (C : Compressor σ) (ops : List ZipOp) :
    ∀ (s : ZipWriter σ), wfOps s.current_file_state.isSome ops = true →
    ∃ s', runOps C s ops = .ok s' ∧ s'.current_file_state = none := by
  induction ops with
  | nil =>
    intro s hwf
    cases hc : s.current_file_state with
    | some cfs => rw [hc] at hwf; exact Bool.noConfusion hwf
    | none => exact ⟨s, rfl, hc⟩
  | cons op rest ih =>
    intro s hwf
    cases op with
    | start_file name =>
      cases hc : s.current_file_state with
      | some cfs => rw [hc] at hwf; exact Bool.noConfusion hwf
      | none =>
        rw [hc] at hwf
        obtain ⟨sink, fmeta, bw, cur⟩ := s
        simp only at hc
        subst hc
        obtain ⟨s', hrun, hnone⟩ := ih
          ⟨sink ++ localFileHeaderBytes ⟨0, 0, 0, bw, name⟩, fmeta,
           (bw + localFileHeaderSize ⟨0, 0, 0, bw, name⟩) % u32Mod,
           some ⟨⟨0, 0, 0, bw, name⟩, crc32Init, C.init⟩⟩ hwf
        exact ⟨s', by rw [runOps_cons]; exact hrun, hnone⟩
    | write buf =>
      cases hc : s.current_file_state with
      | none => rw [hc] at hwf; exact Bool.noConfusion hwf
      | some cfs =>
        rw [hc] at hwf
        obtain ⟨fm, hsh, enc⟩ := cfs
        obtain ⟨sink, fmeta, bw, cur⟩ := s
        simp only at hc
        subst hc
        obtain ⟨s', hrun, hnone⟩ := ih
          ⟨sink ++ (C.write enc buf).2, fmeta, bw,
           some ⟨⟨fm.crc32,
                  (fm.uncompressed_size + buf.length % u32Mod) % u32Mod,
                  (fm.compressed_size + (C.write enc buf).2.length % u32Mod) % u32Mod,
                  fm.offset, fm.file_name⟩,
                 crc32Update hsh buf, (C.write enc buf).1⟩⟩ hwf
        exact ⟨s', by rw [runOps_cons]; exact hrun, hnone⟩
    | finish_file =>
      cases hc : s.current_file_state with
      | none => rw [hc] at hwf; exact Bool.noConfusion hwf
      | some cfs =>
        rw [hc] at hwf
        obtain ⟨fm, hsh, enc⟩ := cfs
        obtain ⟨sink, fmeta, bw, cur⟩ := s
        simp only at hc
        subst hc
        obtain ⟨s', hrun, hnone⟩ := ih
          ⟨sink ++ C.finish enc ++ dataDescriptorBytes (finalizeMd C fm hsh enc),
           fmeta ++ [finalizeMd C fm hsh enc],
           ((bw + (finalizeMd C fm hsh enc).compressed_size) % u32Mod + 16) % u32Mod,
           none⟩ hwf
        exact ⟨s', by rw [runOps_cons]; exact hrun, hnone⟩

/-- Offsets recorded in `mdsOf` are the running totals of the block
lengths. -/
theorem mdsOf_offset_spec (C : Compressor σ) (entries : List (List Nat × List (List Nat))) :
    ∀ (b : Nat) (i : Nat) (h : i < (mdsOf C b entries).length),
      ((mdsOf C b entries).get ⟨i, h⟩).offset =
        b + (((entries.take i).map fun e => (entryBlock C e.1 e.2).length).sum) := by
  induction entries with
  | nil => intro b i h; simp [mdsOf] at h
  | cons e rest ih =>
    intro b i h
    cases i with
    | zero => simp [mdsOf, entryMd]
    | succ j =>
      simp only [mdsOf, List.get_cons_succ] at h ⊢
      rw [ih (b + (entryBlock C e.1 e.2).length) j (by simpa [mdsOf] using h)]
      simp [List.take_succ_cons]
      omega

/-- Dropping the first `i` blocks from the block stream leaves the remaining
blocks. -/
theorem blocksOf_drop_spec (C : Compressor σ) (entries : List (List Nat × List (List Nat))) :
    ∀ (i : Nat),
      (blocksOf C entries).drop
        (((entries.take i).map fun e => (entryBlock C e.1 e.2).length).sum) =
        ((entries.drop i).map fun e => entryBlock C e.1 e.2).flatten := by
  induction entries with
  | nil => intro i; simp [blocksOf]
  | cons e rest ih =>
    intro i
    cases i with
    | zero => simp [blocksOf]
    | succ j =>
      simp only [List.take_succ_cons, List.map_cons, List.sum_cons, List.drop_succ_cons]
      have hb : blocksOf C (e :: rest) = entryBlock C e.1 e.2 ++ blocksOf C rest := by
        simp [blocksOf]
      rw [hb, drop_append_len]
      exact ih j

/-! ## The claims -/

/-- C1: Round-trip.  For any compressor behaviour within the documented
DEFLATE contract and any decompressor `D` inverting it, driving the session
as `new; (start_file; write*; finish_file)*; finish` over a list of
(name, payload-chunks) pairs with unique names — payload sizes, name
lengths, entry count, and total stream size within the no-ZIP64 bounds —
produces a byte stream that the reference APPNOTE reader decodes back to
exactly the same (name, payload) pairs in the same order. -/
theorem C1_round_trip {σ : Type} (C : Compressor σ) (D : List Nat → List Nat)
    (entries : List (List Nat × List (List Nat)))
    (hD : ∀ chunks : List (List Nat), D (compressAll C chunks) = chunks.flatten)
    (huniq : (entries.map Prod.fst).Pairwise (· ≠ ·))
    (hflat : ∀ e ∈ entries, e.2.flatten.length < u32Mod)
    (hname : ∀ e ∈ entries, e.1.length < u16Mod)
    (hcount : entries.length < u16Mod)
    (hsize : (blocksOf C entries).length +
      (cdBytesOf (mdsOf C 0 entries)).length < u32Mod) :
    ∃ stream : List Nat, runSession C entries = .ok stream ∧
      referenceRead D stream = entries.map fun e => (e.1, e.2.flatten) := by
  refine ⟨archiveBytes C entries, runSession_eq C entries hflat hsize, ?_⟩
  rw [referenceRead_archive C D entries hname hcount hsize]
  exact List.map_congr_left fun e he => by rw [hD]

/-- Witness for C1: the single-entry archive ("a" ↦ "hi") with the
passthrough compressor and the identity decoder round-trips. -/
theorem C1_round_trip_witness :
    ∃ stream : List Nat,
      runSession passthroughC [([97], [[104, 105]])] = .ok stream ∧
      referenceRead id stream = [([97], [104, 105])] := by
  have h := C1_round_trip passthroughC id [([97], [[104, 105]])]
    (fun chunks => by rw [id_eq, passthrough_compressAll])
    (by decide) (by decide) (by decide) (by decide) (by decide)
  simpa using h

/-- C2 counterexample: the claim "after every write call `bytes_written`
equals the cumulative bytes delivered to the sink" is false.  After
`start_file [97]` (31 header bytes, counted) and a `write` whose compression
emits one byte to the sink (here the passthrough compressor stands in for
DEFLATE emitting during a write, which the session code does not control),
the sink holds 32 bytes but `bytes_written` is still 31: `write` adds the
emitted bytes to the entry's `compressed_size` only, never to
`bytes_written`. -/
theorem C2_bytes_written_counterexample :
    Except.map (fun s : ZipWriter Unit => (s.bytes_written, s.sink.length))
      (runOps passthroughC ZipWriter.new [ZipOp.start_file [97], ZipOp.write [98]]) =
      .ok (31, 32) ∧ (31 : Nat) ≠ 32 :=
  ⟨rfl, by decide⟩

/-- C2 (amended): at every state reachable from `new` by public operations
(while the stream stays below `2^32` bytes), `bytes_written` plus the open
entry's `compressed_size` (zero when no entry is open) equals the cumulative
byte count delivered to the sink; in particular `bytes_written` equals the
sink byte count exactly at entry boundaries (after `new`, `start_file`
closes nothing, and after every `finish_file`), while after a `write` it may
lag by exactly the compressed bytes emitted so far for the open entry. -/
theorem C2_bytes_written_accounting {σ : Type} (C : Compressor σ)
    (ops : List ZipOp) (s : ZipWriter σ)
    (hrun : runOps C ZipWriter.new ops = .ok s)
    (hlt : s.sink.length < u32Mod) :
    s.bytes_written + openCompressed s = s.sink.length ∧
    (s.current_file_state = none → s.bytes_written = s.sink.length) := by
  have h := runOps_invariant C ops ZipWriter.new s hrun rfl hlt
  refine ⟨h, fun hnone => ?_⟩
  have h0 : openCompressed s = 0 := by simp [openCompressed, hnone]
  omega

/-- Witness for C2 (amended) after `start_file [97]`: 31 counted bytes, an
open entry with zero compressed bytes, 31 sink bytes. -/
theorem C2_bytes_written_accounting_witness :
    (ZipWriter.mk (localFileHeaderBytes ⟨0, 0, 0, 0, [97]⟩) [] 31
        (some ⟨⟨0, 0, 0, 0, [97]⟩, crc32Init, ()⟩) : ZipWriter Unit).bytes_written +
      openCompressed (ZipWriter.mk (localFileHeaderBytes ⟨0, 0, 0, 0, [97]⟩) [] 31
        (some ⟨⟨0, 0, 0, 0, [97]⟩, crc32Init, ()⟩) : ZipWriter Unit) =
      (ZipWriter.mk (localFileHeaderBytes ⟨0, 0, 0, 0, [97]⟩) [] 31
        (some ⟨⟨0, 0, 0, 0, [97]⟩, crc32Init, ()⟩) : ZipWriter Unit).sink.length ∧
    ((ZipWriter.mk (localFileHeaderBytes ⟨0, 0, 0, 0, [97]⟩) [] 31
        (some ⟨⟨0, 0, 0, 0, [97]⟩, crc32Init, ()⟩) : ZipWriter Unit).current_file_state =
          none →
      (ZipWriter.mk (localFileHeaderBytes ⟨0, 0, 0, 0, [97]⟩) [] 31
        (some ⟨⟨0, 0, 0, 0, [97]⟩, crc32Init, ()⟩) : ZipWriter Unit).bytes_written =
      (ZipWriter.mk (localFileHeaderBytes ⟨0, 0, 0, 0, [97]⟩) [] 31
        (some ⟨⟨0, 0, 0, 0, [97]⟩, crc32Init, ()⟩) : ZipWriter Unit).sink.length) :=
  C2_bytes_written_accounting passthroughC [ZipOp.start_file [97]] _ rfl (by decide)

/-- C3: Offset invariant.  For every operation sequence produced by an entry
list (stream within bounds), each finalized entry's recorded `offset` equals
the total number of bytes emitted to the sink before that entry's local file
header began, and the sink from that offset onward starts with exactly that
entry's block (whose first bytes are its local file header). -/
theorem C3_offset_invariant {σ : Type} (C : Compressor σ)
    (entries : List (List Nat × List (List Nat)))
    (hflat : ∀ e ∈ entries, e.2.flatten.length < u32Mod)
    (hblocks : (blocksOf C entries).length < u32Mod) :
    ∃ s : ZipWriter σ, runOps C ZipWriter.new (sessionOps entries) = .ok s ∧
      s.current_file_state = none ∧
      ∀ (i : Nat) (h : i < s.file_metadata.length),
        (s.file_metadata.get ⟨i, h⟩).offset =
          (((entries.take i).map fun e => (entryBlock C e.1 e.2).length).sum) ∧
        s.sink.drop ((s.file_metadata.get ⟨i, h⟩).offset) =
          ((entries.drop i).map fun e => entryBlock C e.1 e.2).flatten := by
  have hrun := runOps_session C entries ZipWriter.new rfl hflat
    (by simp only [ZipWriter.new]; omega)
  have hrun' : runOps C ZipWriter.new (sessionOps entries) =
      .ok ⟨blocksOf C entries, mdsOf C 0 entries, (blocksOf C entries).length, none⟩ := by
    rw [hrun]
    simp [ZipWriter.new]
  refine ⟨_, hrun', rfl, ?_⟩
  intro i h
  have h1 := mdsOf_offset_spec C entries 0 i h
  rw [Nat.zero_add] at h1
  exact ⟨h1, by rw [h1]; exact blocksOf_drop_spec C entries i⟩

/-- Witness for C3 at the single-entry archive ("a" ↦ "b"). -/
theorem C3_offset_invariant_witness :
    ∃ s : ZipWriter Unit,
      runOps passthroughC ZipWriter.new (sessionOps [([97], [[98]])]) = .ok s ∧
      s.current_file_state = none ∧
      ∀ (i : Nat) (h : i < s.file_metadata.length),
        (s.file_metadata.get ⟨i, h⟩).offset =
          ((([([97], [[98]])].take i).map
            fun e => (entryBlock passthroughC e.1 e.2).length).sum) ∧
        s.sink.drop ((s.file_metadata.get ⟨i, h⟩).offset) =
          (([([97], [[98]])].drop i).map fun e => entryBlock passthroughC e.1 e.2).flatten :=
  C3_offset_invariant passthroughC [([97], [[98]])] (by decide) (by decide)

/-- C4: the code has no overflow error.  At a reachable state whose open
entry has `uncompressed_size = 2^32 - 1`, writing one more byte succeeds and
silently wraps the counter to `0` (Rust `as u32` truncation and wrapping
`u32` addition); moreover the only error `write` can ever produce is the
protocol-misuse panic, not an overflow error.  This contradicts the claim
(and spec §7), which requires a distinct overflow error instead of silent
wrapping — the spec itself notes in §9 that "the source uses 32-bit counters
throughout with no overflow check". -/
theorem C4_overflow_wraps :
    Except.map (fun s : ZipWriter Unit =>
        Option.map (fun c => c.file_metadata.uncompressed_size) s.current_file_state)
      (ZipWriter.write passthroughC
        ⟨[], [], 0, some ⟨⟨0, 4294967295, 0, 0, [97]⟩, crc32Init, ()⟩⟩ [0]) =
      .ok (some 0) ∧
    ∀ (s : ZipWriter Unit) (buf : List Nat) (err : ZipPanic),
      ZipWriter.write passthroughC s buf = .error err →
      err.msg = "cannot write until start_file is called" := by
  constructor
  · rfl
  · intro s buf err h
    cases hc : s.current_file_state with
    | some cfs =>
      rw [ZipWriter.write, hc] at h
      exact Except.noConfusion h
    | none =>
      rw [ZipWriter.write, hc] at h
      have := Except.error.inj h
      rw [← this]

/-- Witness for C4's error characterization at `new`. -/
theorem C4_overflow_wraps_witness :
    (⟨"cannot write until start_file is called"⟩ : ZipPanic).msg =
      "cannot write until start_file is called" :=
  C4_overflow_wraps.2 ZipWriter.new [0]
    ⟨"cannot write until start_file is called"⟩ rfl

/-- C5: Central-directory consistency.  `finish` emits, after the current
sink contents, one central directory header per finalized entry in original
order, then an end-of-central-directory record whose offset is the value of
`bytes_written` (the central directory offset), whose size is the central
directory byte length — the sum of the per-entry header sizes
`46 + |name|`, i.e. `bytes_written − cd_offset` — and whose count is the
entry count (truncated to `u16`; exact below `2^16`).  In the degenerate
case, `new; finish` emits exactly the 22-byte empty end-of-central-directory
record. -/
theorem C5_central_directory {σ : Type} (s : ZipWriter σ)
    (h : s.bytes_written + (cdBytesOf s.file_metadata).length < u32Mod) :
    s.finish = s.sink ++ cdBytesOf s.file_metadata ++
      endOfCentralDirectoryBytes (s.file_metadata.length % u16Mod) s.bytes_written
        (cdBytesOf s.file_metadata).length ∧
    (cdBytesOf s.file_metadata).length =
      (s.file_metadata.map fun f => 46 + f.file_name.length).sum ∧
    (s.file_metadata.length < u16Mod →
      u16le (s.file_metadata.length % u16Mod) = u16le s.file_metadata.length) ∧
    (ZipWriter.new : ZipWriter Unit).finish =
      [80, 75, 5, 6, 0, 0, 0, 0, 0, 0, 0, 0, 0, 0, 0, 0, 0, 0, 0, 0, 0, 0] :=
  ⟨finish_eq s h, cdBytesOf_length s.file_metadata,
   fun hlt => by rw [Nat.mod_eq_of_lt hlt], by decide⟩

/-- Witness for C5 at a session with one finalized entry. -/
theorem C5_central_directory_witness :
    (⟨[], [⟨1, 2, 3, 4, [97]⟩], 0, none⟩ : ZipWriter Unit).finish =
      (⟨[], [⟨1, 2, 3, 4, [97]⟩], 0, none⟩ : ZipWriter Unit).sink ++
        cdBytesOf [⟨1, 2, 3, 4, [97]⟩] ++
        endOfCentralDirectoryBytes
          (([⟨1, 2, 3, 4, [97]⟩] : List FileMetadata).length % u16Mod) 0
          (cdBytesOf [⟨1, 2, 3, 4, [97]⟩]).length :=
  (C5_central_directory (⟨[], [⟨1, 2, 3, 4, [97]⟩], 0, none⟩ : ZipWriter Unit)
    (by decide)).1

/-- C6: `finish_file` postcondition.  With an entry open, `finish_file`
finalizes the CRC hasher into the entry's `crc32`, finishes the compressor
and emits its remaining bytes to the sink (adding their count to
`compressed_size`), then writes exactly the 16-byte data descriptor —
signature `0x08074B50`, `crc32`, `compressed_size`, `uncompressed_size`,
little-endian — appends the finalized metadata to the entry list, and
clears the open entry. -/
theorem C6_finish_file_postcondition {σ : Type} (C : Compressor σ) (s : ZipWriter σ)
    (cfs : CurrentFileState σ) (h : s.current_file_state = some cfs) :
    s.finish_file C = .ok
      ⟨s.sink ++ C.finish cfs.encoder ++
         dataDescriptorBytes (finalizeMd C cfs.file_metadata cfs.hasher cfs.encoder),
       s.file_metadata ++ [finalizeMd C cfs.file_metadata cfs.hasher cfs.encoder],
       ((s.bytes_written +
           (finalizeMd C cfs.file_metadata cfs.hasher cfs.encoder).compressed_size) %
             u32Mod + 16) % u32Mod,
       none⟩ ∧
    (finalizeMd C cfs.file_metadata cfs.hasher cfs.encoder).crc32 =
      crc32Finalize cfs.hasher ∧
    (finalizeMd C cfs.file_metadata cfs.hasher cfs.encoder).compressed_size =
      (cfs.file_metadata.compressed_size + (C.finish cfs.encoder).length % u32Mod)
        % u32Mod ∧
    (finalizeMd C cfs.file_metadata cfs.hasher cfs.encoder).uncompressed_size =
      cfs.file_metadata.uncompressed_size ∧
    dataDescriptorBytes (finalizeMd C cfs.file_metadata cfs.hasher cfs.encoder) =
      u32le 0x08074b50 ++
      u32le (finalizeMd C cfs.file_metadata cfs.hasher cfs.encoder).crc32 ++
      u32le (finalizeMd C cfs.file_metadata cfs.hasher cfs.encoder).compressed_size ++
      u32le (finalizeMd C cfs.file_metadata cfs.hasher cfs.encoder).uncompressed_size ∧
    (dataDescriptorBytes (finalizeMd C cfs.file_metadata cfs.hasher cfs.encoder)).length
      = 16 := by
  obtain ⟨sink, fmeta, bw, cur⟩ := s
  obtain ⟨fm, hsh, enc⟩ := cfs
  simp only at h
  subst h
  exact ⟨rfl, rfl, rfl, rfl, rfl, dataDescriptorBytes_length _⟩

/-- Witness for C6: the data descriptor of a concretely finalized entry is
16 bytes. -/
theorem C6_finish_file_postcondition_witness :
    (dataDescriptorBytes (finalizeMd passthroughC ⟨0, 0, 0, 0, [97]⟩ crc32Init ())).length
      = 16 :=
  (C6_finish_file_postcondition passthroughC
    (⟨[], [], 0, some ⟨⟨0, 0, 0, 0, [97]⟩, crc32Init, ()⟩⟩ : ZipWriter Unit)
    ⟨⟨0, 0, 0, 0, [97]⟩, crc32Init, ()⟩ rfl).2.2.2.2.2

/-- C7: Local file header layout.  For every file name the header is exactly
`30 + |name|` bytes: signature `0x04034B50`, version-needed `0x0014`, flags
`0x0008` (bit 3), method `8`, mod-time `0`, mod-date `0`, CRC `0`,
compressed-size `0`, uncompressed-size `0`, the name length as `u16`, extra
length `0`, then the raw name bytes and no extra field; `start_file` emits
it and adds the returned size to `bytes_written`. -/
theorem C7_local_file_header {σ : Type} (C : Compressor σ) (s : ZipWriter σ)
    (name : List Nat) (h : s.current_file_state = none) :
    (∀ f : FileMetadata, localFileHeaderBytes f =
      [80, 75, 3, 4] ++ [20, 0] ++ [8, 0] ++ [8, 0] ++ [0, 0] ++ [0, 0] ++
      [0, 0, 0, 0] ++ [0, 0, 0, 0] ++ [0, 0, 0, 0] ++
      u16le (f.file_name.length % u16Mod) ++ [0, 0] ++ f.file_name) ∧
    (∀ f : FileMetadata, (localFileHeaderBytes f).length = 30 + f.file_name.length) ∧
    s.start_file C name = .ok
      ⟨s.sink ++ localFileHeaderBytes ⟨0, 0, 0, s.bytes_written, name⟩,
       s.file_metadata,
       (s.bytes_written + localFileHeaderSize ⟨0, 0, 0, s.bytes_written, name⟩) % u32Mod,
       some ⟨⟨0, 0, 0, s.bytes_written, name⟩, crc32Init, C.init⟩⟩ ∧
    localFileHeaderSize ⟨0, 0, 0, s.bytes_written, name⟩ =
      (30 + name.length % u32Mod) % u32Mod := by
  refine ⟨fun f => rfl, localFileHeaderBytes_length, ?_, rfl⟩
  obtain ⟨sink, fmeta, bw, cur⟩ := s
  simp only at h
  subst h
  rfl

/-- Witness for C7: `start_file` on a fresh session with name "a". -/
theorem C7_local_file_header_witness :
    ZipWriter.start_file passthroughC (ZipWriter.new : ZipWriter Unit) [97] = .ok
      ⟨localFileHeaderBytes ⟨0, 0, 0, 0, [97]⟩, [], 31,
       some ⟨⟨0, 0, 0, 0, [97]⟩, crc32Init, ()⟩⟩ :=
  (C7_local_file_header passthroughC ZipWriter.new [97] rfl).2.2.1

/-- C8: Protocol misuse is fatal.  `start_file` with an entry open, and
`write`/`finish_file` with no entry open, abort with a panic (modelled as
the distinguished `ZipPanic` outcome) rather than returning a recoverable
value; and under the documented state machine (`Empty → Open → Empty → …`,
ending closed) a run from `new` never reaches any of these panic
branches. -/
theorem C8_protocol_misuse {σ : Type} (C : Compressor σ) :
    (∀ (s : ZipWriter σ) (name : List Nat), s.current_file_state.isSome = true →
      s.start_file C name = .error ⟨"call finish_file before starting a new file"⟩) ∧
    (∀ (s : ZipWriter σ) (buf : List Nat), s.current_file_state = none →
      s.write C buf = .error ⟨"cannot write until start_file is called"⟩) ∧
    (∀ s : ZipWriter σ, s.current_file_state = none →
      s.finish_file C = .error ⟨"called Option::unwrap() on a None value"⟩) ∧
    (∀ ops : List ZipOp, wfOps false ops = true →
      ∃ s', runOps C ZipWriter.new ops = .ok s' ∧ s'.current_file_state = none) := by
  refine ⟨?_, ?_, ?_, ?_⟩
  · intro s name hs
    cases hc : s.current_file_state with
    | none => rw [hc] at hs; exact Bool.noConfusion hs
    | some cfs => rw [ZipWriter.start_file, hc]
  · intro s buf hs
    rw [ZipWriter.write, hs]
  · intro s hs
    rw [ZipWriter.finish_file, hs]
  · intro ops hwf
    exact wfOps_runOps C ops ZipWriter.new hwf

/-- Witness for C8: concrete misuse panics and a concrete conforming run
that succeeds. -/
theorem C8_protocol_misuse_witness :
    ZipWriter.write passthroughC (ZipWriter.new : ZipWriter Unit) [1] =
      .error ⟨"cannot write until start_file is called"⟩ ∧
    ZipWriter.start_file passthroughC
        (⟨[], [], 0, some ⟨⟨0, 0, 0, 0, []⟩, crc32Init, ()⟩⟩ : ZipWriter Unit) [97] =
      .error ⟨"call finish_file before starting a new file"⟩ ∧
    ∃ s', runOps passthroughC (ZipWriter.new : ZipWriter Unit)
        [ZipOp.start_file [97], ZipOp.finish_file] = .ok s' ∧
      s'.current_file_state = none :=
  ⟨(C8_protocol_misuse passthroughC).2.1 ZipWriter.new [1] rfl,
   (C8_protocol_misuse passthroughC).1
     (⟨[], [], 0, some ⟨⟨0, 0, 0, 0, []⟩, crc32Init, ()⟩⟩ : ZipWriter Unit) [97] rfl,
   (C8_protocol_misuse passthroughC).2.2.2
     [ZipOp.start_file [97], ZipOp.finish_file] (by decide)⟩

/-- C9: Determinism.  The stream is a pure function of the operation
sequence (two sessions over equal entry lists produce identical results —
the model reads no clock, randomness, or environment), and the mod-time and
mod-date fields are hardcoded to zero in every local file header (bytes
10–13) and every central directory header (bytes 12–15). -/
theorem C9_determinism {σ : Type} (C : Compressor σ) :
    (∀ entries₁ entries₂ : List (List Nat × List (List Nat)),
      entries₁ = entries₂ → runSession C entries₁ = runSession C entries₂) ∧
    (∀ f : FileMetadata, ((localFileHeaderBytes f).drop 10).take 4 = [0, 0, 0, 0]) ∧
    (∀ f : FileMetadata, ((centralDirectoryHeaderBytes f).drop 12).take 4 = [0, 0, 0, 0]) :=
  ⟨fun e₁ e₂ h => by rw [h], fun f => rfl, fun f => rfl⟩

/-- Witness for C9 at a concrete entry list. -/
theorem C9_determinism_witness :
    runSession passthroughC [([97], [[98]])] = runSession passthroughC [([97], [[98]])] :=
  (C9_determinism passthroughC).1 [([97], [[98]])] [([97], [[98]])] rfl

/-- C10: File-name length truncation.  The headers store the name-length
field as `|name| mod 2^16` (exact for names of at most 65535 bytes, zero for
a 65536-byte name) while always emitting every name byte after the fixed
header fields, and `start_file` never validates the length — it succeeds for
every name. -/
theorem C10_name_length_truncation {σ : Type} (C : Compressor σ) (s : ZipWriter σ)
    (name : List Nat) (h : s.current_file_state = none) :
    (∀ f : FileMetadata,
      readU16 (localFileHeaderBytes f) 26 = f.file_name.length % u16Mod) ∧
    (∀ f : FileMetadata, (localFileHeaderBytes f).drop 30 = f.file_name) ∧
    (∀ f : FileMetadata,
      readU16 (centralDirectoryHeaderBytes f) 28 = f.file_name.length % u16Mod) ∧
    (∀ f : FileMetadata, (centralDirectoryHeaderBytes f).drop 46 = f.file_name) ∧
    (∀ f : FileMetadata, f.file_name.length ≤ 65535 →
      readU16 (localFileHeaderBytes f) 26 = f.file_name.length) ∧
    (∀ f : FileMetadata, f.file_name.length = 65536 →
      readU16 (localFileHeaderBytes f) 26 = 0) ∧
    (∃ s', s.start_file C name = .ok s') := by
  have h1 : ∀ f : FileMetadata,
      readU16 (localFileHeaderBytes f) 26 = f.file_name.length % u16Mod := by
    intro f
    have := lfh_read_nameLen ([] : List Nat) ([] : List Nat) f
    simpa using this
  have h3 : ∀ f : FileMetadata,
      readU16 (centralDirectoryHeaderBytes f) 28 = f.file_name.length % u16Mod := by
    intro f
    have := cdh_read_nameLen ([] : List Nat) ([] : List Nat) f
    simpa using this
  refine ⟨h1, fun f => rfl, h3, fun f => rfl, ?_, ?_, ?_⟩
  · intro f hf
    rw [h1 f]
    exact Nat.mod_eq_of_lt (by simp only [u16Mod]; omega)
  · intro f hf
    rw [h1 f, hf]
    rfl
  · obtain ⟨sink, fmeta, bw, cur⟩ := s
    simp only at h
    subst h
    exact ⟨_, rfl⟩

/-- Witness for C10: a 65536-byte name is stored with name-length field 0
while all 65536 name bytes are still emitted. -/
theorem C10_name_length_truncation_witness :
    readU16 (localFileHeaderBytes ⟨0, 0, 0, 0, List.replicate 65536 97⟩) 26 = 0 :=
  (C10_name_length_truncation passthroughC (ZipWriter.new : ZipWriter Unit) [97]
    rfl).2.2.2.2.2.1 ⟨0, 0, 0, 0, List.replicate 65536 97⟩
    (by rw [show (⟨0, 0, 0, 0, List.replicate 65536 97⟩ : FileMetadata).file_name =
          List.replicate 65536 97 from rfl, List.length_replicate])

end ZipService
